import Mathlib

/-!
Verification of the name2date tool (src/main.py) against its specification.

The program is a linear pipeline: enumerate files of fixed extensions in a
directory, extract a capture timestamp from each filename with two fixed
regular expressions, and rewrite the file's access/modification times.

Modelling choices (shallow embedding):
* Filenames are `List Char` (ASCII; a character is a digit when it lies in
  the range of the characters 0 to 9, mirroring the digit class of the two
  patterns on the filenames the program targets).
* Python's `datetime(...)` constructor either produces a value or raises
  `ValueError`; we model it as `Option Timestamp`, and an uncaught raise as
  the `Except.error` branch of the surrounding computation.
* `re.search` with a fixed-length pattern is a leftmost scan, modelled by a
  structural scan over the character list.
* The filesystem is a flat list of entries with access/modification times in
  integer microseconds since the POSIX epoch (the float seconds passed to
  `os.utime` are modelled exactly); an entry carries a flag saying whether
  the `os.utime` call on it fails (permission denied and similar).
* Printed output is modelled as a list of abstract messages.
-/

/-- A Python exception escaping `parse_filename` (from the `datetime`
constructor on out-of-range calendar fields). -/
inductive PyError where
  | valueError
deriving DecidableEq

/-- The parsed timestamp: a `datetime` with `tzinfo=timezone.utc` (the code
always attaches UTC, so the zone is not a field). -/
structure Timestamp where
  year : Nat
  month : Nat
  day : Nat
  hour : Nat
  minute : Nat
  second : Nat
  microsecond : Nat
deriving DecidableEq

/-- Strip an expected literal from the front of a character list; `none` when
the input does not start with the literal. -/
def stripLit : List Char → List Char → Option (List Char)
  | [], l => some l
  | _ :: _, [] => none
  | p :: ps, c :: l => if c = p then stripLit ps l else none

/-- Read exactly `n` decimal digits, accumulating their value (this is the
regex digit group followed by Python's `int`). -/
def readDigitsAux : Nat → Nat → List Char → Option (Nat × List Char)
  | 0, acc, l => some (acc, l)
  | _ + 1, _, [] => none
  | n + 1, acc, c :: l =>
    if c.isDigit then readDigitsAux n (acc * 10 + (c.toNat - 48)) l else none

def readDigits (n : Nat) (l : List Char) : Option (Nat × List Char) :=
  readDigitsAux n 0 l

/-- Match the pattern PXL_(dddd)(dd)(dd)_(dd)(dd)(dd)(ddd) at the head of the
list, returning the seven integer groups. -/
def pxlMatchAt (l : List Char) : Option (Nat × Nat × Nat × Nat × Nat × Nat × Nat) :=
  match stripLit (String.data "PXL_") l with
  | none => none
  | some l0 =>
  match readDigits 4 l0 with
  | none => none
  | some (y, l1) =>
  match readDigits 2 l1 with
  | none => none
  | some (mo, l2) =>
  match readDigits 2 l2 with
  | none => none
  | some (dy, l3) =>
  match stripLit (String.data "_") l3 with
  | none => none
  | some l4 =>
  match readDigits 2 l4 with
  | none => none
  | some (hr, l5) =>
  match readDigits 2 l5 with
  | none => none
  | some (mi, l6) =>
  match readDigits 2 l6 with
  | none => none
  | some (sec, l7) =>
  match readDigits 3 l7 with
  | none => none
  | some (ms, _) => some (y, mo, dy, hr, mi, sec, ms)

/-- Leftmost search for the PXL pattern (re.search semantics). -/
def searchPxl : List Char → Option (Nat × Nat × Nat × Nat × Nat × Nat × Nat)
  | [] => none
  | c :: rest =>
    match pxlMatchAt (c :: rest) with
    | some g => some g
    | none => searchPxl rest

/-- Index of the leftmost PXL match, when one exists. -/
def pxlFindIdx : List Char → Option Nat
  | [] => none
  | c :: rest =>
    if (pxlMatchAt (c :: rest)).isSome then some 0
    else (pxlFindIdx rest).map (· + 1)

/-- Match the pattern lv_0_(dddd)(dd)(dd)(dd)(dd)(dd) at the head of the
list, returning the six integer groups. -/
def lvMatchAt (l : List Char) : Option (Nat × Nat × Nat × Nat × Nat × Nat) :=
  match stripLit (String.data "lv_0_") l with
  | none => none
  | some l0 =>
  match readDigits 4 l0 with
  | none => none
  | some (y, l1) =>
  match readDigits 2 l1 with
  | none => none
  | some (mo, l2) =>
  match readDigits 2 l2 with
  | none => none
  | some (dy, l3) =>
  match readDigits 2 l3 with
  | none => none
  | some (hr, l4) =>
  match readDigits 2 l4 with
  | none => none
  | some (mi, l5) =>
  match readDigits 2 l5 with
  | none => none
  | some (sec, _) => some (y, mo, dy, hr, mi, sec)

/-- Leftmost search for the lv_0 pattern. -/
def searchLv : List Char → Option (Nat × Nat × Nat × Nat × Nat × Nat)
  | [] => none
  | c :: rest =>
    match lvMatchAt (c :: rest) with
    | some g => some g
    | none => searchLv rest

/-- Index of the leftmost lv_0 match, when one exists. -/
def lvFindIdx : List Char → Option Nat
  | [] => none
  | c :: rest =>
    if (lvMatchAt (c :: rest)).isSome then some 0
    else (lvFindIdx rest).map (· + 1)

/-- Gregorian leap-year rule used by Python's datetime. -/
def isLeap (y : Nat) : Bool := y % 4 == 0 && (y % 100 != 0 || y % 400 == 0)

def daysInMonth (y m : Nat) : Nat :=
  if m = 2 then (if isLeap y then 29 else 28)
  else if m = 4 ∨ m = 6 ∨ m = 9 ∨ m = 11 then 30
  else 31

/-- The `datetime(year, month, day, hour, minute, second, microsecond,
tzinfo=timezone.utc)` constructor: `some` on in-range fields, `none` for the
`ValueError` raise. -/
def datetime_mk (y mo dy hr mi sec us : Nat) : Option Timestamp :=
  if 1 ≤ y ∧ y ≤ 9999 ∧ 1 ≤ mo ∧ mo ≤ 12 ∧ 1 ≤ dy ∧ dy ≤ daysInMonth y mo
      ∧ hr ≤ 23 ∧ mi ≤ 59 ∧ sec ≤ 59 ∧ us ≤ 999999
  then some ⟨y, mo, dy, hr, mi, sec, us⟩ else none

/-- `parse_filename` from src/main.py: try the PXL pattern, then the lv_0
pattern; `.ok none` is the Python `None` return (NotFound), `.error` is an
uncaught `ValueError` escaping the function. -/
def parse_filename (name : List Char) : Except PyError (Option Timestamp) :=
  match searchPxl name with
  | some (y, mo, dy, hr, mi, sec, ms) =>
    match datetime_mk y mo dy hr mi sec (ms * 1000) with
    | some dt => .ok (some dt)
    | none => .error PyError.valueError
  | none =>
    match searchLv name with
    | some (y, mo, dy, hr, mi, sec) =>
      match datetime_mk y mo dy hr mi sec 0 with
      | some dt => .ok (some dt)
      | none => .error PyError.valueError
    | none => .ok none

lemma datetime_mk_some {y mo dy hr mi sec us : Nat} {dt : Timestamp}
    (h : datetime_mk y mo dy hr mi sec us = some dt) :
    dt = ⟨y, mo, dy, hr, mi, sec, us⟩ := by
  unfold datetime_mk at h
  split at h
  · exact (Option.some.injEq _ _ ▸ h).symm
  · exact absurd h (by simp)

/-- C1: on an otherwise well-formed PXL token with month 13, the regex
matches, `int` conversion succeeds, and the `datetime` constructor raises a
`ValueError` that `parse_filename` does not catch: the call errors instead
of returning NotFound. -/
theorem parse_invalid_month_raises :
    parse_filename (String.data "PXL_20231301_000000000.jpg") =
      .error PyError.valueError := by rfl

/-- C2: whenever a pattern matches and the extracted digits form a valid
calendar date-time, `parse_filename` returns a timestamp whose fields equal
the extracted digits exactly; the PXL millisecond group is scaled by 1000 to
microseconds, and the lv_0 format produces a zero sub-second component. -/
theorem parse_extracted_fields (name : List Char) :
    (∀ (y mo dy hr mi sec ms : Nat) (dt : Timestamp),
      searchPxl name = some (y, mo, dy, hr, mi, sec, ms) →
      datetime_mk y mo dy hr mi sec (ms * 1000) = some dt →
      parse_filename name = .ok (some dt) ∧ dt.year = y ∧ dt.month = mo ∧
        dt.day = dy ∧ dt.hour = hr ∧ dt.minute = mi ∧ dt.second = sec ∧
        dt.microsecond = ms * 1000) ∧
    (∀ (y mo dy hr mi sec : Nat) (dt : Timestamp),
      searchPxl name = none →
      searchLv name = some (y, mo, dy, hr, mi, sec) →
      datetime_mk y mo dy hr mi sec 0 = some dt →
      parse_filename name = .ok (some dt) ∧ dt.year = y ∧ dt.month = mo ∧
        dt.day = dy ∧ dt.hour = hr ∧ dt.minute = mi ∧ dt.second = sec ∧
        dt.microsecond = 0) := by
  constructor
  · intro y mo dy hr mi sec ms dt h1 h2
    have hdt := datetime_mk_some h2
    subst hdt
    refine ⟨?_, rfl, rfl, rfl, rfl, rfl, rfl, rfl⟩
    unfold parse_filename
    simp only [h1, h2]
  · intro y mo dy hr mi sec dt h0 h1 h2
    have hdt := datetime_mk_some h2
    subst hdt
    refine ⟨?_, rfl, rfl, rfl, rfl, rfl, rfl, rfl⟩
    unfold parse_filename
    simp only [h0, h1, h2]

/-- Witness for C2 at the two example filenames of the specification. -/
theorem parse_extracted_fields_witness :
    parse_filename (String.data "PXL_20230615_143022123.mp4") =
      .ok (some ⟨2023, 6, 15, 14, 30, 22, 123000⟩) ∧
    parse_filename (String.data "lv_0_20230615143022.mp4") =
      .ok (some ⟨2023, 6, 15, 14, 30, 22, 0⟩) := by
  constructor
  · exact ((parse_extracted_fields (String.data "PXL_20230615_143022123.mp4")).1
      2023 6 15 14 30 22 123 ⟨2023, 6, 15, 14, 30, 22, 123000⟩ (by rfl) (by rfl)).1
  · exact ((parse_extracted_fields (String.data "lv_0_20230615143022.mp4")).2
      2023 6 15 14 30 22 ⟨2023, 6, 15, 14, 30, 22, 0⟩ (by rfl) (by rfl) (by rfl)).1

lemma stripLit_some {p l r : List Char} (h : stripLit p l = some r) : l = p ++ r := by
  induction p generalizing l with
  | nil =>
    simp only [stripLit, Option.some.injEq] at h
    simp [h]
  | cons c ps ih =>
    cases l with
    | nil => exact absurd h (by simp [stripLit])
    | cons a l =>
      unfold stripLit at h
      split at h
      · next heq => rw [heq, List.cons_append]; exact congrArg _ (ih h)
      · exact absurd h (by simp)

lemma stripLit_append {p l r t : List Char} (h : stripLit p l = some r) :
    stripLit p (l ++ t) = some (r ++ t) := by
  induction p generalizing l with
  | nil =>
    simp only [stripLit, Option.some.injEq] at h
    simp [stripLit, h]
  | cons c ps ih =>
    cases l with
    | nil => exact absurd h (by simp [stripLit])
    | cons a l =>
      simp only [stripLit] at h
      by_cases heq : a = c
      · rw [if_pos heq] at h
        simp only [List.cons_append, stripLit, if_pos heq]
        exact ih h
      · rw [if_neg heq] at h
        exact absurd h (by simp)

lemma readDigitsAux_append {n acc : Nat} {l r t : List Char} {v : Nat}
    (h : readDigitsAux n acc l = some (v, r)) :
    readDigitsAux n acc (l ++ t) = some (v, r ++ t) := by
  induction n generalizing acc l with
  | zero =>
    simp only [readDigitsAux, Option.some.injEq, Prod.mk.injEq] at h
    simp [readDigitsAux, h.1, h.2]
  | succ n ih =>
    cases l with
    | nil => exact absurd h (by simp [readDigitsAux])
    | cons c l =>
      simp only [readDigitsAux] at h
      by_cases hd : c.isDigit
      · rw [if_pos hd] at h
        simp only [List.cons_append, readDigitsAux, if_pos hd]
        exact ih h
      · rw [if_neg hd] at h
        exact absurd h (by simp)

lemma readDigits_append {n : Nat} {l r t : List Char} {v : Nat}
    (h : readDigits n l = some (v, r)) :
    readDigits n (l ++ t) = some (v, r ++ t) :=
  readDigitsAux_append h

lemma pxlMatchAt_append {l t : List Char} {g : Nat × Nat × Nat × Nat × Nat × Nat × Nat}
    (h : pxlMatchAt l = some g) : pxlMatchAt (l ++ t) = some g := by
  unfold pxlMatchAt at h ⊢
  cases h0 : stripLit (String.data "PXL_") l with
  | none => simp only [h0] at h; exact Option.noConfusion h
  | some l0 =>
  simp only [h0] at h
  cases h1 : readDigits 4 l0 with
  | none => simp only [h1] at h; exact Option.noConfusion h
  | some p1 =>
  obtain ⟨y, l1⟩ := p1
  simp only [h1] at h
  cases h2 : readDigits 2 l1 with
  | none => simp only [h2] at h; exact Option.noConfusion h
  | some p2 =>
  obtain ⟨mo, l2⟩ := p2
  simp only [h2] at h
  cases h3 : readDigits 2 l2 with
  | none => simp only [h3] at h; exact Option.noConfusion h
  | some p3 =>
  obtain ⟨dy, l3⟩ := p3
  simp only [h3] at h
  cases h4 : stripLit (String.data "_") l3 with
  | none => simp only [h4] at h; exact Option.noConfusion h
  | some l4 =>
  simp only [h4] at h
  cases h5 : readDigits 2 l4 with
  | none => simp only [h5] at h; exact Option.noConfusion h
  | some p5 =>
  obtain ⟨hr, l5⟩ := p5
  simp only [h5] at h
  cases h6 : readDigits 2 l5 with
  | none => simp only [h6] at h; exact Option.noConfusion h
  | some p6 =>
  obtain ⟨mi, l6⟩ := p6
  simp only [h6] at h
  cases h7 : readDigits 2 l6 with
  | none => simp only [h7] at h; exact Option.noConfusion h
  | some p7 =>
  obtain ⟨sec, l7⟩ := p7
  simp only [h7] at h
  cases h8 : readDigits 3 l7 with
  | none => simp only [h8] at h; exact Option.noConfusion h
  | some p8 =>
  obtain ⟨ms, l8⟩ := p8
  simp only [h8] at h
  simp only [stripLit_append h0, readDigits_append h1, readDigits_append h2,
    readDigits_append h3, stripLit_append h4, readDigits_append h5,
    readDigits_append h6, readDigits_append h7, readDigits_append h8]
  exact h

lemma searchPxl_eq_of_findIdx : ∀ {l : List Char} {i : Nat},
    pxlFindIdx l = some i → searchPxl l = pxlMatchAt (List.drop i l) := by
  intro l
  induction l with
  | nil => intro i h; exact absurd h (by simp [pxlFindIdx])
  | cons c rest ih =>
    intro i h
    unfold pxlFindIdx at h
    by_cases hm : (pxlMatchAt (c :: rest)).isSome
    · rw [if_pos hm] at h
      have hi : i = 0 := by
        have := h
        simp only [Option.some.injEq] at this
        exact this.symm
      subst hi
      unfold searchPxl
      cases hmm : pxlMatchAt (c :: rest) with
      | none => rw [hmm] at hm; exact absurd hm (by simp)
      | some g => simp [hmm]
    · rw [if_neg hm] at h
      cases hr : pxlFindIdx rest with
      | none => rw [hr] at h; exact absurd h (by simp)
      | some j =>
        rw [hr] at h
        simp at h
        subst h
        unfold searchPxl
        cases hmm : pxlMatchAt (c :: rest) with
        | some g => rw [hmm] at hm; exact absurd rfl hm
        | none => simpa using ih hr

lemma lvMatchAt_append {l t : List Char} {g : Nat × Nat × Nat × Nat × Nat × Nat}
    (h : lvMatchAt l = some g) : lvMatchAt (l ++ t) = some g := by
  unfold lvMatchAt at h ⊢
  cases h0 : stripLit (String.data "lv_0_") l with
  | none => simp only [h0] at h; exact Option.noConfusion h
  | some l0 =>
  simp only [h0] at h
  cases h1 : readDigits 4 l0 with
  | none => simp only [h1] at h; exact Option.noConfusion h
  | some p1 =>
  obtain ⟨y, l1⟩ := p1
  simp only [h1] at h
  cases h2 : readDigits 2 l1 with
  | none => simp only [h2] at h; exact Option.noConfusion h
  | some p2 =>
  obtain ⟨mo, l2⟩ := p2
  simp only [h2] at h
  cases h3 : readDigits 2 l2 with
  | none => simp only [h3] at h; exact Option.noConfusion h
  | some p3 =>
  obtain ⟨dy, l3⟩ := p3
  simp only [h3] at h
  cases h4 : readDigits 2 l3 with
  | none => simp only [h4] at h; exact Option.noConfusion h
  | some p4 =>
  obtain ⟨hr, l4⟩ := p4
  simp only [h4] at h
  cases h5 : readDigits 2 l4 with
  | none => simp only [h5] at h; exact Option.noConfusion h
  | some p5 =>
  obtain ⟨mi, l5⟩ := p5
  simp only [h5] at h
  cases h6 : readDigits 2 l5 with
  | none => simp only [h6] at h; exact Option.noConfusion h
  | some p6 =>
  obtain ⟨sec, l6⟩ := p6
  simp only [h6] at h
  simp only [stripLit_append h0, readDigits_append h1, readDigits_append h2,
    readDigits_append h3, readDigits_append h4, readDigits_append h5,
    readDigits_append h6]
  exact h

lemma searchLv_eq_of_findIdx : ∀ {l : List Char} {i : Nat},
    lvFindIdx l = some i → searchLv l = lvMatchAt (List.drop i l) := by
  intro l
  induction l with
  | nil => intro i h; exact absurd h (by simp [lvFindIdx])
  | cons c rest ih =>
    intro i h
    unfold lvFindIdx at h
    by_cases hm : (lvMatchAt (c :: rest)).isSome
    · rw [if_pos hm] at h
      have hi : i = 0 := by
        have := h
        simp only [Option.some.injEq] at this
        exact this.symm
      subst hi
      unfold searchLv
      cases hmm : lvMatchAt (c :: rest) with
      | none => rw [hmm] at hm; exact absurd hm (by simp)
      | some g => simp [hmm]
    · rw [if_neg hm] at h
      cases hr : lvFindIdx rest with
      | none => rw [hr] at h; exact absurd h (by simp)
      | some j =>
        rw [hr] at h
        simp at h
        subst h
        unfold searchLv
        cases hmm : lvMatchAt (c :: rest) with
        | some g => rw [hmm] at hm; exact absurd rfl hm
        | none => simpa using ih hr

lemma searchPxl_append_none : ∀ {l t : List Char},
    searchPxl (l ++ t) = none → searchPxl l = none := by
  intro l
  induction l with
  | nil => intro t h; rfl
  | cons c rest ih =>
    intro t h
    rw [List.cons_append] at h
    unfold searchPxl at h ⊢
    cases hm : pxlMatchAt (c :: (rest ++ t)) with
    | some g => simp only [hm] at h; exact Option.noConfusion h
    | none =>
      simp only [hm] at h
      cases hm2 : pxlMatchAt (c :: rest) with
      | some g =>
        have h3 : pxlMatchAt ((c :: rest) ++ t) = some g := pxlMatchAt_append hm2
        rw [List.cons_append] at h3
        rw [h3] at hm
        exact Option.noConfusion hm
      | none =>
        simp only [hm2]
        exact ih h

lemma searchPxl_dropPre_none : ∀ {pre l : List Char},
    searchPxl (pre ++ l) = none → searchPxl l = none := by
  intro pre
  induction pre with
  | nil => intro l h; exact h
  | cons c pre2 ih =>
    intro l h
    rw [List.cons_append] at h
    unfold searchPxl at h
    cases hm : pxlMatchAt (c :: (pre2 ++ l)) with
    | some g => simp only [hm] at h; exact Option.noConfusion h
    | none =>
      simp only [hm] at h
      exact ih h

/-- C4 (amended): matching is unanchored, so surrounding text never blocks a
match, but the patterns have priority: the PXL pattern is searched over the
whole filename first and the lv_0 pattern only when no PXL occurrence
exists anywhere; within the winning pattern the leftmost occurrence is
used. A surrounded PXL token parses like the bare token provided no earlier
PXL occurrence is introduced; a surrounded lv_0 token parses like the bare
token provided no PXL occurrence exists at all and no earlier lv_0
occurrence is introduced. -/
theorem parse_unanchored :
    (∀ (pre tok post : List Char) (g : Nat × Nat × Nat × Nat × Nat × Nat × Nat),
      pxlMatchAt tok = some g →
      pxlFindIdx (pre ++ (tok ++ post)) = some pre.length →
      parse_filename (pre ++ (tok ++ post)) = parse_filename tok) ∧
    (∀ (pre tok post : List Char) (g : Nat × Nat × Nat × Nat × Nat × Nat),
      lvMatchAt tok = some g →
      searchPxl (pre ++ (tok ++ post)) = none →
      lvFindIdx (pre ++ (tok ++ post)) = some pre.length →
      parse_filename (pre ++ (tok ++ post)) = parse_filename tok) := by
  constructor
  · intro pre tok post g h1 h2
    have hs1 : searchPxl tok = some g := by
      cases tok with
      | nil => exact absurd h1 (by simp [pxlMatchAt, stripLit])
      | cons c r =>
        unfold searchPxl
        simp [h1]
    have hs2 : searchPxl (pre ++ (tok ++ post)) = some g := by
      rw [searchPxl_eq_of_findIdx h2, List.drop_left]
      exact pxlMatchAt_append h1
    unfold parse_filename
    rw [hs1, hs2]
  · intro pre tok post g h1 hpxl h2
    have htokpxl : searchPxl tok = none :=
      searchPxl_append_none (searchPxl_dropPre_none hpxl)
    have hlv1 : searchLv tok = some g := by
      cases tok with
      | nil => exact absurd h1 (by simp [lvMatchAt, stripLit])
      | cons c r =>
        unfold searchLv
        simp [h1]
    have hlv2 : searchLv (pre ++ (tok ++ post)) = some g := by
      rw [searchLv_eq_of_findIdx h2, List.drop_left]
      exact lvMatchAt_append h1
    unfold parse_filename
    rw [hpxl, htokpxl, hlv1, hlv2]

/-- Witness for the amended C4: a prefixed and suffixed PXL token, and a
prefixed and suffixed lv_0 token, each parse the same as the bare token. -/
theorem parse_unanchored_witness :
    parse_filename (String.data "myvid_" ++
        (String.data "PXL_20230615_143022123" ++ String.data ".NIGHT.jpg")) =
      parse_filename (String.data "PXL_20230615_143022123") ∧
    parse_filename (String.data "clip_" ++
        (String.data "lv_0_20230615143022" ++ String.data "(1).mp4")) =
      parse_filename (String.data "lv_0_20230615143022") :=
  ⟨parse_unanchored.1 (String.data "myvid_") (String.data "PXL_20230615_143022123")
      (String.data ".NIGHT.jpg") (2023, 6, 15, 14, 30, 22, 123) (by rfl) (by rfl),
   parse_unanchored.2 (String.data "clip_") (String.data "lv_0_20230615143022")
      (String.data "(1).mp4") (2023, 6, 15, 14, 30, 22) (by rfl) (by rfl) (by rfl)⟩

/-- Counterexample to C4 as stated: surrounding text is not arbitrary.
First, a prefix that itself contains a PXL occurrence makes the leftmost
match land in the prefix, so the parse differs from the bare token's.
Second, even when an lv_0 token is the leftmost pattern occurrence, a PXL
occurrence later in the filename wins, because the PXL pattern is tried
first over the whole string. -/
theorem parse_unanchored_counterexample :
    parse_filename (String.data "PXL_20200101_000000000PXL_20230615_143022123.jpg") =
      .ok (some ⟨2020, 1, 1, 0, 0, 0, 0⟩) ∧
    parse_filename (String.data "PXL_20230615_143022123") =
      .ok (some ⟨2023, 6, 15, 14, 30, 22, 123000⟩) ∧
    (⟨2020, 1, 1, 0, 0, 0, 0⟩ : Timestamp) ≠ ⟨2023, 6, 15, 14, 30, 22, 123000⟩ ∧
    parse_filename (String.data "lv_0_20230615143022.PXL_20230615_143022123.mp4") =
      .ok (some ⟨2023, 6, 15, 14, 30, 22, 123000⟩) ∧
    parse_filename (String.data "lv_0_20230615143022") =
      .ok (some ⟨2023, 6, 15, 14, 30, 22, 0⟩) ∧
    (⟨2023, 6, 15, 14, 30, 22, 123000⟩ : Timestamp) ≠ ⟨2023, 6, 15, 14, 30, 22, 0⟩ :=
  ⟨by rfl, by rfl, by decide, by rfl, by rfl, by decide⟩

/-- One directory entry: its base name, access/modification times in integer
microseconds since the POSIX epoch, and whether the `os.utime` call on it
fails (permission denied, file vanished, unsupported filesystem). -/
structure Entry where
  name : List Char
  atime : Int
  mtime : Int
  utimeFails : Bool
deriving DecidableEq

/-- Operator-facing output, abstracted from the printed strings. -/
inductive Msg where
  | processing (name : List Char)
  | updated (name : List Char) (dt : Timestamp)
  | errorUpdating (name : List Char)
  | skipped (name : List Char)
  | invalidDir
  | header
  | summary (s f : Nat)
deriving DecidableEq

/-- Days from 1 Jan year 1 (proleptic Gregorian, civil-calendar counting),
for years at least 1 as guaranteed by `datetime_mk`. -/
def days_from_civil (y m d : Nat) : Nat :=
  let yAdj := if m ≤ 2 then y - 1 else y
  let era := yAdj / 400
  let yoe := yAdj - era * 400
  let mp := if 2 < m then m - 3 else m + 9
  let doy := (153 * mp + 2) / 5 + d - 1
  let doe := yoe * 365 + yoe / 4 - yoe / 100 + doy
  era * 146097 + doe

/-- `dt.timestamp()` for the UTC-aware parsed datetime, scaled to integer
microseconds (exact: the sub-second part of such a datetime is a whole
number of microseconds). -/
def epochMicros (t : Timestamp) : Int :=
  ((days_from_civil t.year t.month t.day : Int) - 719468) * 86400000000
    + ((t.hour * 3600 + t.minute * 60 + t.second) * 1000000 + t.microsecond : Nat)

lemma epochMicros_epoch_zero : epochMicros ⟨1970, 1, 1, 0, 0, 0, 0⟩ = 0 := by decide

lemma epochMicros_spec_example :
    epochMicros ⟨2023, 6, 15, 14, 30, 22, 123000⟩ = 1686839422123000 := by decide

/-- `update_file_modification_time` from src/main.py: convert the datetime to
an epoch timestamp and set both the access and the modification time of the
file to it with `os.utime`; on an `OSError` print the error and return
`False`. -/
def update_file_modification_time (e : Entry) (dt : Timestamp) :
    Bool × Entry × List Msg :=
  if e.utimeFails then (false, e, [Msg.errorUpdating e.name])
  else (true, { e with atime := epochMicros dt, mtime := epochMicros dt }, [])

/-- The supported glob patterns, in the order the code iterates them. -/
def file_extensions : List (List Char) :=
  [String.data "mp4", String.data "mov", String.data "avi",
   String.data "mkv", String.data "jpg"]

/-- Whether glob pattern `*.<ext>` matches a base name: the name must end in
a dot followed by the extension (case-sensitively), and glob skips entries
whose name starts with a dot (Unix hidden files) since the pattern does not
start with one. -/
def globMatches (ext name : List Char) : Bool :=
  match name with
  | [] => false
  | c :: _ => c != '.' && (stripLit (List.reverse ext ++ ['.']) (List.reverse name)).isSome

/-- The body of the per-file loop of `process_directory`: parse the base
name; on a timestamp attempt the metadata update and count success/failure,
on `None` count a failure; verbosity only adds messages. An uncaught
`ValueError` from `parse_filename` aborts the whole run. -/
def processEntry (v : Nat) (e : Entry) : Except PyError (Nat × Nat × Entry × List Msg) :=
  match parse_filename e.name with
  | .error err => .error err
  | .ok none =>
    .ok (0, 1, e, (if 2 ≤ v then [Msg.processing e.name] else []) ++
      (if 1 ≤ v then [Msg.skipped e.name] else []))
  | .ok (some dt) =>
    match update_file_modification_time e dt with
    | (true, e2, out) =>
      .ok (1, 0, e2, (if 2 ≤ v then [Msg.processing e.name] else []) ++ out ++
        (if 2 ≤ v then [Msg.updated e.name dt] else []))
    | (false, e2, out) =>
      .ok (0, 1, e2, (if 2 ≤ v then [Msg.processing e.name] else []) ++ out)

/-- One pass of `process_directory`: visit the entries matched by a single
glob pattern, in enumeration order, threading the directory state. -/
def processExt (v : Nat) (ext : List Char) :
    List Entry → Except PyError (Nat × Nat × List Entry × List Msg)
  | [] => .ok (0, 0, [], [])
  | e :: rest =>
    if globMatches ext e.name then
      match processEntry v e with
      | .error err => .error err
      | .ok (s1, f1, e2, log1) =>
        match processExt v ext rest with
        | .error err => .error err
        | .ok (s2, f2, rest2, log2) => .ok (s1 + s2, f1 + f2, e2 :: rest2, log1 ++ log2)
    else
      match processExt v ext rest with
      | .error err => .error err
      | .ok (s2, f2, rest2, log2) => .ok (s2, f2, e :: rest2, log2)

/-- The extension loop of `process_directory`, accumulating the tally. -/
def processExts (v : Nat) :
    List (List Char) → List Entry → Except PyError (Nat × Nat × List Entry × List Msg)
  | [], dir => .ok (0, 0, dir, [])
  | ext :: rest, dir =>
    match processExt v ext dir with
    | .error err => .error err
    | .ok (s1, f1, dir1, log1) =>
      match processExts v rest dir1 with
      | .error err => .error err
      | .ok (s2, f2, dir2, log2) => .ok (s1 + s2, f1 + f2, dir2, log1 ++ log2)

/-- `process_directory` from src/main.py over the modelled directory. -/
def process_directory (dir : List Entry) (verbose : Nat) :
    Except PyError (Nat × Nat × List Entry × List Msg) :=
  processExts verbose file_extensions dir

/-- `main` from src/main.py: `isDir` is the `os.path.isdir` check on the
supplied path; on failure an error is printed and nothing is processed
(the directory state is returned untouched and no tally is produced). -/
def main_entry (isDir : Bool) (dir : List Entry) (v : Nat) :
    Except PyError (Option (Nat × Nat) × List Entry × List Msg) :=
  if isDir then
    match process_directory dir v with
    | .error err => .error err
    | .ok (s, f, d2, log) => .ok (some (s, f), d2, Msg.header :: (log ++ [Msg.summary s f]))
  else .ok (none, dir, [Msg.invalidDir])

/-- C8: with a working filesystem, the metadata update converts the parsed
UTC timestamp to its POSIX epoch value and sets both the access time and the
modification time to that same value, leaving everything else unchanged and
reporting success. -/
theorem update_sets_both_times (e : Entry) (dt : Timestamp)
    (h : e.utimeFails = false) :
    update_file_modification_time e dt =
      (true, ⟨e.name, epochMicros dt, epochMicros dt, false⟩, []) := by
  unfold update_file_modification_time
  rw [h]
  simp

/-- Witness for C8 at the specification's example timestamp. -/
theorem update_sets_both_times_witness :
    update_file_modification_time
        ⟨String.data "PXL_20230615_143022123.mp4", 0, 0, false⟩
        ⟨2023, 6, 15, 14, 30, 22, 123000⟩ =
      (true, ⟨String.data "PXL_20230615_143022123.mp4",
        epochMicros ⟨2023, 6, 15, 14, 30, 22, 123000⟩,
        epochMicros ⟨2023, 6, 15, 14, 30, 22, 123000⟩, false⟩, []) :=
  update_sets_both_times ⟨String.data "PXL_20230615_143022123.mp4", 0, 0, false⟩
    ⟨2023, 6, 15, 14, 30, 22, 123000⟩ rfl

/-- C9: when the supplied path is not a directory, the run reports the error
and aborts before scanning: no counts are produced and the directory state
is returned exactly as it was. -/
theorem invalid_directory_aborts (isDir : Bool) (dir : List Entry) (v : Nat)
    (h : isDir = false) :
    main_entry isDir dir v = .ok (none, dir, [Msg.invalidDir]) := by
  subst h
  rfl

/-- Witness for C9. -/
theorem invalid_directory_aborts_witness :
    main_entry false [⟨String.data "PXL_20230615_143022123.mp4", 0, 0, false⟩] 0 =
      .ok (none, [⟨String.data "PXL_20230615_143022123.mp4", 0, 0, false⟩],
        [Msg.invalidDir]) :=
  invalid_directory_aborts false
    [⟨String.data "PXL_20230615_143022123.mp4", 0, 0, false⟩] 0 rfl

lemma update_fails {e : Entry} {dt : Timestamp} (h : e.utimeFails = true) :
    update_file_modification_time e dt = (false, e, [Msg.errorUpdating e.name]) := by
  unfold update_file_modification_time
  rw [h]
  simp

lemma update_ok {e : Entry} {dt : Timestamp} (h : e.utimeFails = false) :
    update_file_modification_time e dt =
      (true, ⟨e.name, epochMicros dt, epochMicros dt, e.utimeFails⟩, []) := by
  unfold update_file_modification_time
  rw [h]
  simp

/-- Projection of a per-file result onto everything except the printed
messages. -/
def stripE (r : Nat × Nat × Entry × List Msg) : Nat × Nat × Entry :=
  (r.1, r.2.1, r.2.2.1)

/-- Projection of a directory-run result onto everything except the printed
messages. -/
def stripD (r : Nat × Nat × List Entry × List Msg) : Nat × Nat × List Entry :=
  (r.1, r.2.1, r.2.2.1)

lemma processEntry_ok_name {v : Nat} {e : Entry} {s f : Nat} {e2 : Entry} {log : List Msg}
    (h : processEntry v e = .ok (s, f, e2, log)) :
    e2.name = e.name ∧ e2.utimeFails = e.utimeFails := by
  unfold processEntry at h
  cases hp : parse_filename e.name with
  | error err =>
    simp only [hp] at h
    exact Except.noConfusion h
  | ok o =>
    cases o with
    | none =>
      simp only [hp, Except.ok.injEq, Prod.mk.injEq] at h
      obtain ⟨-, -, h3, -⟩ := h
      subst h3
      exact ⟨rfl, rfl⟩
    | some dt =>
      cases hf : e.utimeFails with
      | true =>
        simp only [hp, update_fails hf, Except.ok.injEq, Prod.mk.injEq] at h
        obtain ⟨-, -, h3, -⟩ := h
        subst h3
        exact ⟨rfl, hf⟩
      | false =>
        simp only [hp, update_ok hf, Except.ok.injEq, Prod.mk.injEq] at h
        obtain ⟨-, -, h3, -⟩ := h
        subst h3
        exact ⟨rfl, hf⟩

lemma processEntry_counts {v : Nat} {e : Entry} {s f : Nat} {e2 : Entry} {log : List Msg}
    (h : processEntry v e = .ok (s, f, e2, log)) : s + f = 1 := by
  unfold processEntry at h
  cases hp : parse_filename e.name with
  | error err =>
    simp only [hp] at h
    exact Except.noConfusion h
  | ok o =>
    cases o with
    | none =>
      simp only [hp, Except.ok.injEq, Prod.mk.injEq] at h
      omega
    | some dt =>
      cases hf : e.utimeFails with
      | true =>
        simp only [hp, update_fails hf, Except.ok.injEq, Prod.mk.injEq] at h
        omega
      | false =>
        simp only [hp, update_ok hf, Except.ok.injEq, Prod.mk.injEq] at h
        omega

lemma processEntry_idem {v : Nat} {e : Entry} {s f : Nat} {e2 : Entry} {log : List Msg}
    (h : processEntry v e = .ok (s, f, e2, log)) :
    processEntry v e2 = .ok (s, f, e2, log) := by
  unfold processEntry at h ⊢
  cases hp : parse_filename e.name with
  | error err =>
    simp only [hp] at h
    exact Except.noConfusion h
  | ok o =>
    cases o with
    | none =>
      simp only [hp, Except.ok.injEq, Prod.mk.injEq] at h
      obtain ⟨h1, h2, h3, h4⟩ := h
      subst h1; subst h2; subst h3; subst h4
      simp only [hp]
    | some dt =>
      cases hf : e.utimeFails with
      | true =>
        simp only [hp, update_fails hf, Except.ok.injEq, Prod.mk.injEq] at h
        obtain ⟨h1, h2, h3, h4⟩ := h
        subst h1; subst h2; subst h3; subst h4
        simp only [hp, update_fails hf]
      | false =>
        simp only [hp, update_ok hf, Except.ok.injEq, Prod.mk.injEq] at h
        obtain ⟨h1, h2, h3, h4⟩ := h
        subst h1; subst h2; subst h3; subst h4
        rw [hf]
        have hp2 : parse_filename
            (⟨e.name, epochMicros dt, epochMicros dt, false⟩ : Entry).name =
            .ok (some dt) := hp
        simp only [hp2,
          update_ok (e := ⟨e.name, epochMicros dt, epochMicros dt, false⟩) rfl]

lemma processEntry_verbose (v1 v2 : Nat) (e : Entry) :
    (processEntry v1 e).map stripE = (processEntry v2 e).map stripE := by
  unfold processEntry
  cases hp : parse_filename e.name with
  | error err => simp only [hp]
  | ok o =>
    cases o with
    | none =>
      simp only [hp]
      rfl
    | some dt =>
      cases hu : update_file_modification_time e dt with
      | mk b rest =>
        obtain ⟨e2, out⟩ := rest
        simp only [hp, hu]
        cases b
        · rfl
        · rfl

/-- C3: a filename matching neither token parses to NotFound (`None`), and
the per-file step of the Directory Processor then counts one failure and
returns the entry untouched (its times and all other state unchanged),
printing only the optional skip narration. -/
theorem notfound_counts_failure (e : Entry) (v : Nat)
    (h1 : searchPxl e.name = none) (h2 : searchLv e.name = none) :
    parse_filename e.name = .ok none ∧
    processEntry v e = .ok (0, 1, e,
      (if 2 ≤ v then [Msg.processing e.name] else []) ++
      (if 1 ≤ v then [Msg.skipped e.name] else [])) := by
  have hp : parse_filename e.name = .ok none := by
    unfold parse_filename
    simp only [h1, h2]
  refine ⟨hp, ?_⟩
  unfold processEntry
  simp only [hp]

/-- Witness for C3 at the specification's example `random_video.mp4`. -/
theorem notfound_counts_failure_witness :
    parse_filename (String.data "random_video.mp4") = .ok none ∧
    processEntry 1 ⟨String.data "random_video.mp4", 7, 7, false⟩ =
      .ok (0, 1, ⟨String.data "random_video.mp4", 7, 7, false⟩,
        [Msg.skipped (String.data "random_video.mp4")]) :=
  notfound_counts_failure ⟨String.data "random_video.mp4", 7, 7, false⟩ 1
    (by rfl) (by rfl)

/-- An entry is settled when reprocessing it changes nothing. -/
def Settled (v : Nat) (e : Entry) : Prop :=
  ∃ s f log, processEntry v e = .ok (s, f, e, log)

lemma processExt_counts {v : Nat} {ext : List Char} :
    ∀ {dir : List Entry} {s f : Nat} {d2 : List Entry} {log : List Msg},
    processExt v ext dir = .ok (s, f, d2, log) →
    s + f = (dir.filter (fun e => globMatches ext e.name)).length := by
  intro dir
  induction dir with
  | nil =>
    intro s f d2 log h
    simp only [processExt, Except.ok.injEq, Prod.mk.injEq] at h
    obtain ⟨h1, h2, -, -⟩ := h
    simp only [List.filter_nil, List.length_nil]
    omega
  | cons e rest ih =>
    intro s f d2 log h
    unfold processExt at h
    cases hm : globMatches ext e.name with
    | true =>
      rw [if_pos hm] at h
      cases hpe : processEntry v e with
      | error err => simp only [hpe] at h; exact Except.noConfusion h
      | ok r1 =>
        obtain ⟨s1, f1, e2, log1⟩ := r1
        simp only [hpe] at h
        cases hre : processExt v ext rest with
        | error err => simp only [hre] at h; exact Except.noConfusion h
        | ok r2 =>
          obtain ⟨s2, f2, rest2, log2⟩ := r2
          simp only [hre, Except.ok.injEq, Prod.mk.injEq] at h
          obtain ⟨h1, h2, -, -⟩ := h
          have hc1 := processEntry_counts hpe
          have hc2 := ih hre
          simp [List.filter_cons, hm]
          omega
    | false =>
      rw [if_neg (show ¬ globMatches ext e.name = true by simp [hm])] at h
      cases hre : processExt v ext rest with
      | error err => simp only [hre] at h; exact Except.noConfusion h
      | ok r2 =>
        obtain ⟨s2, f2, rest2, log2⟩ := r2
        simp only [hre, Except.ok.injEq, Prod.mk.injEq] at h
        obtain ⟨h1, h2, -, -⟩ := h
        have hc2 := ih hre
        simp [List.filter_cons, hm]
        omega

lemma processExt_post {v : Nat} {ext : List Char} :
    ∀ {dir : List Entry} {s f : Nat} {d2 : List Entry} {log : List Msg},
    processExt v ext dir = .ok (s, f, d2, log) →
    List.Forall₂ (fun a b => b.name = a.name ∧
      (globMatches ext a.name = false → b = a) ∧
      (globMatches ext a.name = true →
        ∃ s1 f1 log1, processEntry v a = .ok (s1, f1, b, log1) ∧
          processEntry v b = .ok (s1, f1, b, log1))) dir d2 := by
  intro dir
  induction dir with
  | nil =>
    intro s f d2 log h
    simp only [processExt, Except.ok.injEq, Prod.mk.injEq] at h
    obtain ⟨-, -, h3, -⟩ := h
    subst h3
    exact List.Forall₂.nil
  | cons e rest ih =>
    intro s f d2 log h
    unfold processExt at h
    cases hm : globMatches ext e.name with
    | true =>
      rw [if_pos hm] at h
      cases hpe : processEntry v e with
      | error err => simp only [hpe] at h; exact Except.noConfusion h
      | ok r1 =>
        obtain ⟨s1, f1, e2, log1⟩ := r1
        simp only [hpe] at h
        cases hre : processExt v ext rest with
        | error err => simp only [hre] at h; exact Except.noConfusion h
        | ok r2 =>
          obtain ⟨s2, f2, rest2, log2⟩ := r2
          simp only [hre, Except.ok.injEq, Prod.mk.injEq] at h
          obtain ⟨-, -, h3, -⟩ := h
          subst h3
          refine List.Forall₂.cons ⟨(processEntry_ok_name hpe).1, ?_, ?_⟩ (ih hre)
          · intro hfalse
            rw [hm] at hfalse
            exact Bool.noConfusion hfalse
          · intro _
            exact ⟨s1, f1, log1, hpe, processEntry_idem hpe⟩
    | false =>
      rw [if_neg (show ¬ globMatches ext e.name = true by simp [hm])] at h
      cases hre : processExt v ext rest with
      | error err => simp only [hre] at h; exact Except.noConfusion h
      | ok r2 =>
        obtain ⟨s2, f2, rest2, log2⟩ := r2
        simp only [hre, Except.ok.injEq, Prod.mk.injEq] at h
        obtain ⟨-, -, h3, -⟩ := h
        subst h3
        refine List.Forall₂.cons ⟨rfl, fun _ => rfl, ?_⟩ (ih hre)
        intro htrue
        rw [hm] at htrue
        exact Bool.noConfusion htrue

lemma processExt_rerun {v : Nat} {ext : List Char} :
    ∀ {dir : List Entry} {s f : Nat} {d2 cur : List Entry} {log : List Msg},
    processExt v ext dir = .ok (s, f, d2, log) →
    List.Forall₂ (fun b c => c.name = b.name ∧
      (globMatches ext b.name = true → c = b)) d2 cur →
    processExt v ext cur = .ok (s, f, cur, log) := by
  intro dir
  induction dir with
  | nil =>
    intro s f d2 cur log h hf
    simp only [processExt, Except.ok.injEq, Prod.mk.injEq] at h
    obtain ⟨h1, h2, h3, h4⟩ := h
    subst h1; subst h2; subst h3; subst h4
    cases hf
    rfl
  | cons e rest ih =>
    intro s f d2 cur log h hf
    unfold processExt at h
    cases hm : globMatches ext e.name with
    | true =>
      rw [if_pos hm] at h
      cases hpe : processEntry v e with
      | error err => simp only [hpe] at h; exact Except.noConfusion h
      | ok r1 =>
        obtain ⟨s1, f1, e2, log1⟩ := r1
        simp only [hpe] at h
        cases hre : processExt v ext rest with
        | error err => simp only [hre] at h; exact Except.noConfusion h
        | ok r2 =>
          obtain ⟨s2, f2, rest2, log2⟩ := r2
          simp only [hre, Except.ok.injEq, Prod.mk.injEq] at h
          obtain ⟨h1, h2, h3, h4⟩ := h
          subst h3
          cases hf with
          | cons hbc htail =>
            rename_i c cur2
            obtain ⟨hcn, hcb⟩ := hbc
            have hname := (processEntry_ok_name hpe).1
            have hc : c = e2 := hcb (by rw [hname]; exact hm)
            subst hc
            have hm2 : globMatches ext c.name = true := by rw [hname]; exact hm
            unfold processExt
            rw [if_pos hm2]
            simp only [processEntry_idem hpe, ih hre htail]
            rw [h1, h2, h4]
    | false =>
      rw [if_neg (show ¬ globMatches ext e.name = true by simp [hm])] at h
      cases hre : processExt v ext rest with
      | error err => simp only [hre] at h; exact Except.noConfusion h
      | ok r2 =>
        obtain ⟨s2, f2, rest2, log2⟩ := r2
        simp only [hre, Except.ok.injEq, Prod.mk.injEq] at h
        obtain ⟨h1, h2, h3, h4⟩ := h
        subst h3
        cases hf with
        | cons hbc htail =>
          rename_i c cur2
          obtain ⟨hcn, -⟩ := hbc
          have hm2 : globMatches ext c.name = false := by rw [hcn]; exact hm
          unfold processExt
          rw [if_neg (show ¬ globMatches ext c.name = true by simp [hm2])]
          simp only [ih hre htail]
          rw [h1, h2, h4]

lemma processExt_verbose (v1 v2 : Nat) (ext : List Char) :
    ∀ (dir : List Entry),
    (processExt v1 ext dir).map stripD = (processExt v2 ext dir).map stripD := by
  intro dir
  induction dir with
  | nil => rfl
  | cons e rest ih =>
    unfold processExt
    cases hm : globMatches ext e.name with
    | true =>
      rw [if_pos (rfl : true = true), if_pos (rfl : true = true)]
      have he := processEntry_verbose v1 v2 e
      cases h1 : processEntry v1 e with
      | error err =>
        cases h2 : processEntry v2 e with
        | error err2 => rfl
        | ok r2 =>
          rw [h1, h2] at he
          simp only [Except.map] at he
          exact Except.noConfusion he
      | ok r1 =>
        cases h2 : processEntry v2 e with
        | error err2 =>
          rw [h1, h2] at he
          simp only [Except.map] at he
          exact Except.noConfusion he
        | ok r2 =>
          obtain ⟨s1, f1, e2, log1⟩ := r1
          obtain ⟨s1b, f1b, e2b, log1b⟩ := r2
          rw [h1, h2] at he
          simp only [Except.map, Except.ok.injEq, stripE, Prod.mk.injEq] at he
          obtain ⟨hs, hf2, he2⟩ := he
          subst hs; subst hf2; subst he2
          cases hr1 : processExt v1 ext rest with
          | error err =>
            cases hr2 : processExt v2 ext rest with
            | error err2 => rfl
            | ok rr2 =>
              rw [hr1, hr2] at ih
              simp only [Except.map] at ih
              exact Except.noConfusion ih
          | ok rr1 =>
            cases hr2 : processExt v2 ext rest with
            | error err2 =>
              rw [hr1, hr2] at ih
              simp only [Except.map] at ih
              exact Except.noConfusion ih
            | ok rr2 =>
              obtain ⟨s2, f2, rest2, log2⟩ := rr1
              obtain ⟨s2b, f2b, rest2b, log2b⟩ := rr2
              rw [hr1, hr2] at ih
              simp only [Except.map, Except.ok.injEq, stripD, Prod.mk.injEq] at ih
              obtain ⟨hs2, hf2, hrest2⟩ := ih
              subst hs2; subst hf2; subst hrest2
              simp only [h1, h2, hr1, hr2]
              rfl
    | false =>
      rw [if_neg (show ¬ false = true by simp), if_neg (show ¬ false = true by simp)]
      cases hr1 : processExt v1 ext rest with
      | error err =>
        cases hr2 : processExt v2 ext rest with
        | error err2 => rfl
        | ok rr2 =>
          rw [hr1, hr2] at ih
          simp only [Except.map] at ih
          exact Except.noConfusion ih
      | ok rr1 =>
        cases hr2 : processExt v2 ext rest with
        | error err2 =>
          rw [hr1, hr2] at ih
          simp only [Except.map] at ih
          exact Except.noConfusion ih
        | ok rr2 =>
          obtain ⟨s2, f2, rest2, log2⟩ := rr1
          obtain ⟨s2b, f2b, rest2b, log2b⟩ := rr2
          rw [hr1, hr2] at ih
          simp only [Except.map, Except.ok.injEq, stripD, Prod.mk.injEq] at ih
          obtain ⟨hs2, hf2, hrest2⟩ := ih
          subst hs2; subst hf2; subst hrest2
          simp only [hr1, hr2]
          rfl

lemma forall2_self {α : Type} {R : α → α → Prop} (h : ∀ a, R a a) :
    ∀ l : List α, List.Forall₂ R l l
  | [] => List.Forall₂.nil
  | a :: l => List.Forall₂.cons (h a) (forall2_self h l)

lemma forall2_comp {α : Type} {R S T : α → α → Prop}
    (hc : ∀ a b c, R a b → S b c → T a c) :
    ∀ {l1 l2 l3 : List α}, List.Forall₂ R l1 l2 → List.Forall₂ S l2 l3 →
      List.Forall₂ T l1 l3 := by
  intro l1 l2 l3 h12
  induction h12 generalizing l3 with
  | nil =>
    intro h23
    cases h23
    exact List.Forall₂.nil
  | cons hab htail ih =>
    intro h23
    cases h23 with
    | cons hbc htail2 => exact List.Forall₂.cons (hc _ _ _ hab hbc) (ih htail2)

/-- Number of entries one glob pattern matches. -/
def countMatched (ext : List Char) (dir : List Entry) : Nat :=
  (dir.filter (fun e => globMatches ext e.name)).length

/-- Number of per-file visits of a whole run: each pattern's matches summed
in pattern order. -/
def sumCount (exts : List (List Char)) (dir : List Entry) : Nat :=
  (exts.map (fun ext => countMatched ext dir)).sum

lemma countMatched_congr {ext : List Char} :
    ∀ {d1 d2 : List Entry}, List.Forall₂ (fun a b => b.name = a.name) d1 d2 →
    countMatched ext d2 = countMatched ext d1 := by
  intro d1 d2 h
  induction h with
  | nil => rfl
  | cons hab htail ih =>
    rename_i a b l1 l2
    simp only [countMatched, List.filter_cons, hab] at ih ⊢
    cases hg : globMatches ext a.name
    · simp [hg, ih]
    · simp [hg, ih]

lemma sumCount_congr {d1 d2 : List Entry}
    (h : List.Forall₂ (fun a b => b.name = a.name) d1 d2) :
    ∀ exts : List (List Char), sumCount exts d2 = sumCount exts d1 := by
  intro exts
  induction exts with
  | nil => rfl
  | cons ext rest ih =>
    simp only [sumCount, List.map_cons, List.sum_cons] at ih ⊢
    rw [countMatched_congr h, ih]

lemma sumCount_cons (ext : List Char) (exts : List (List Char)) (dir : List Entry) :
    sumCount (ext :: exts) dir = countMatched ext dir + sumCount exts dir := by
  simp [sumCount]

lemma processExt_names {v : Nat} {ext : List Char} {dir d2 : List Entry}
    {s f : Nat} {log : List Msg} (h : processExt v ext dir = .ok (s, f, d2, log)) :
    List.Forall₂ (fun a b => b.name = a.name) dir d2 :=
  List.Forall₂.imp (fun _ _ hab => hab.1) (processExt_post h)

lemma processExts_names {v : Nat} :
    ∀ {exts : List (List Char)} {dir d2 : List Entry} {s f : Nat} {log : List Msg},
    processExts v exts dir = .ok (s, f, d2, log) →
    List.Forall₂ (fun a b => b.name = a.name) dir d2 := by
  intro exts
  induction exts with
  | nil =>
    intro dir d2 s f log h
    simp only [processExts, Except.ok.injEq, Prod.mk.injEq] at h
    obtain ⟨-, -, h3, -⟩ := h
    subst h3
    exact forall2_self (R := fun a b => b.name = a.name) (fun a => rfl) dir
  | cons ext rest ih =>
    intro dir d2 s f log h
    unfold processExts at h
    cases h1 : processExt v ext dir with
    | error err => simp only [h1] at h; exact Except.noConfusion h
    | ok r1 =>
      obtain ⟨s1, f1, dir1, log1⟩ := r1
      simp only [h1] at h
      cases h2 : processExts v rest dir1 with
      | error err => simp only [h2] at h; exact Except.noConfusion h
      | ok r2 =>
        obtain ⟨s2, f2, dir2, log2⟩ := r2
        simp only [h2, Except.ok.injEq, Prod.mk.injEq] at h
        obtain ⟨-, -, h3, -⟩ := h
        subst h3
        exact forall2_comp (fun a b c hab hbc => hbc.trans hab)
          (processExt_names h1) (ih h2)

lemma processExts_counts {v : Nat} :
    ∀ {exts : List (List Char)} {dir d2 : List Entry} {s f : Nat} {log : List Msg},
    processExts v exts dir = .ok (s, f, d2, log) →
    s + f = sumCount exts dir := by
  intro exts
  induction exts with
  | nil =>
    intro dir d2 s f log h
    simp only [processExts, Except.ok.injEq, Prod.mk.injEq] at h
    obtain ⟨h1, h2, -, -⟩ := h
    simp only [sumCount, List.map_nil, List.sum_nil]
    omega
  | cons ext rest ih =>
    intro dir d2 s f log h
    unfold processExts at h
    cases h1 : processExt v ext dir with
    | error err => simp only [h1] at h; exact Except.noConfusion h
    | ok r1 =>
      obtain ⟨s1, f1, dir1, log1⟩ := r1
      simp only [h1] at h
      cases h2 : processExts v rest dir1 with
      | error err => simp only [h2] at h; exact Except.noConfusion h
      | ok r2 =>
        obtain ⟨s2, f2, dir2, log2⟩ := r2
        simp only [h2, Except.ok.injEq, Prod.mk.injEq] at h
        obtain ⟨h3, h4, -, -⟩ := h
        have hc1 : s1 + f1 = countMatched ext dir := processExt_counts h1
        have hc2 : s2 + f2 = sumCount rest dir1 := ih h2
        have hc2b : s2 + f2 = sumCount rest dir := by
          rw [hc2, sumCount_congr (processExt_names h1)]
        rw [sumCount_cons]
        omega

lemma processExts_cons_eq (v : Nat) (ext : List Char) (rest : List (List Char))
    (dir : List Entry) :
    processExts v (ext :: rest) dir =
      match processExt v ext dir with
      | .error err => .error err
      | .ok (s1, f1, dir1, log1) =>
        match processExts v rest dir1 with
        | .error err => .error err
        | .ok (s2, f2, dir2, log2) => .ok (s1 + s2, f1 + f2, dir2, log1 ++ log2) :=
  rfl

lemma processExts_cons_err {v : Nat} {ext : List Char} {rest : List (List Char)}
    {dir : List Entry} {err : PyError} (h1 : processExt v ext dir = .error err) :
    processExts v (ext :: rest) dir = .error err := by
  rw [processExts_cons_eq]
  simp only [h1]

lemma processExts_cons_ok (rest : List (List Char)) {v : Nat} {ext : List Char}
    {dir : List Entry} {s1 f1 : Nat} {dir1 : List Entry} {log1 : List Msg}
    (h1 : processExt v ext dir = .ok (s1, f1, dir1, log1)) :
    processExts v (ext :: rest) dir =
      match processExts v rest dir1 with
      | .error err => .error err
      | .ok (s2, f2, dir2, log2) => .ok (s1 + s2, f1 + f2, dir2, log1 ++ log2) := by
  rw [processExts_cons_eq]
  simp only [h1]

lemma processExts_verbose (v1 v2 : Nat) :
    ∀ (exts : List (List Char)) (dir : List Entry),
    (processExts v1 exts dir).map stripD = (processExts v2 exts dir).map stripD := by
  intro exts
  induction exts with
  | nil => intro dir; rfl
  | cons ext rest ih =>
    intro dir
    have h1 := processExt_verbose v1 v2 ext dir
    cases hx1 : processExt v1 ext dir with
    | error err =>
      cases hx2 : processExt v2 ext dir with
      | error err2 =>
        rw [processExts_cons_err hx1, processExts_cons_err hx2]
      | ok r2 =>
        rw [hx1, hx2] at h1
        simp only [Except.map] at h1
        exact Except.noConfusion h1
    | ok r1 =>
      cases hx2 : processExt v2 ext dir with
      | error err2 =>
        rw [hx1, hx2] at h1
        simp only [Except.map] at h1
        exact Except.noConfusion h1
      | ok r2 =>
        obtain ⟨s1, f1, dir1, log1⟩ := r1
        obtain ⟨s1b, f1b, dir1b, log1b⟩ := r2
        rw [hx1, hx2] at h1
        simp only [Except.map, Except.ok.injEq, stripD, Prod.mk.injEq] at h1
        obtain ⟨hs, hf, hd⟩ := h1
        subst hs; subst hf; subst hd
        rw [processExts_cons_ok rest hx1, processExts_cons_ok rest hx2]
        have h2 := ih dir1
        cases hy1 : processExts v1 rest dir1 with
        | error err =>
          cases hy2 : processExts v2 rest dir1 with
          | error err2 => rfl
          | ok rr2 =>
            rw [hy1, hy2] at h2
            simp only [Except.map] at h2
            exact Except.noConfusion h2
        | ok rr1 =>
          cases hy2 : processExts v2 rest dir1 with
          | error err2 =>
            rw [hy1, hy2] at h2
            simp only [Except.map] at h2
            exact Except.noConfusion h2
          | ok rr2 =>
            obtain ⟨s2, f2, dir2, log2⟩ := rr1
            obtain ⟨s2b, f2b, dir2b, log2b⟩ := rr2
            rw [hy1, hy2] at h2
            simp only [Except.map, Except.ok.injEq, stripD, Prod.mk.injEq] at h2
            obtain ⟨hs2, hf2, hd2⟩ := h2
            subst hs2; subst hf2; subst hd2
            rfl

/-- C7: the verbosity level never influences the tally, the error outcome or
the resulting file state; it only changes what is printed. -/
theorem verbosity_independent (dir : List Entry) (v1 v2 : Nat) :
    (process_directory dir v1).map stripD = (process_directory dir v2).map stripD :=
  processExts_verbose v1 v2 file_extensions dir

/-- C10: whenever a run completes, the tally partitions the visited files:
successes plus failures equal the number of per-file visits (each glob
match is visited once and bumps exactly one counter). -/
theorem tally_sums_visited (dir : List Entry) (v s f : Nat) (d2 : List Entry)
    (log : List Msg) (h : process_directory dir v = .ok (s, f, d2, log)) :
    s + f = sumCount file_extensions dir :=
  processExts_counts h

/-- Witness for C10 on a one-file directory whose name matches no pattern. -/
theorem tally_sums_visited_witness :
    0 + 1 = sumCount file_extensions [⟨String.data "random_video.mp4", 0, 0, false⟩] :=
  tally_sums_visited [⟨String.data "random_video.mp4", 0, 0, false⟩] 0 0 1
    [⟨String.data "random_video.mp4", 0, 0, false⟩] [] (by rfl)

lemma processExt_settledPres {v : Nat} {ext : List Char} {dir d2 : List Entry}
    {s f : Nat} {log : List Msg} (h : processExt v ext dir = .ok (s, f, d2, log)) :
    List.Forall₂ (fun a b => b.name = a.name ∧ (Settled v a → b = a)) dir d2 := by
  refine List.Forall₂.imp ?_ (processExt_post h)
  intro a b hab
  obtain ⟨hn, hfalse, htrue⟩ := hab
  refine ⟨hn, ?_⟩
  intro hs
  cases hg : globMatches ext a.name with
  | false => exact hfalse hg
  | true =>
    obtain ⟨s1, f1, log1, ha, -⟩ := htrue hg
    obtain ⟨s0, f0, log0, ha0⟩ := hs
    rw [ha0] at ha
    simp only [Except.ok.injEq, Prod.mk.injEq] at ha
    obtain ⟨-, -, hba, -⟩ := ha
    exact hba.symm

lemma processExts_settledPres {v : Nat} :
    ∀ {exts : List (List Char)} {dir d2 : List Entry} {s f : Nat} {log : List Msg},
    processExts v exts dir = .ok (s, f, d2, log) →
    List.Forall₂ (fun a b => b.name = a.name ∧ (Settled v a → b = a)) dir d2 := by
  intro exts
  induction exts with
  | nil =>
    intro dir d2 s f log h
    simp only [processExts, Except.ok.injEq, Prod.mk.injEq] at h
    obtain ⟨-, -, h3, -⟩ := h
    subst h3
    exact forall2_self (R := fun a b => b.name = a.name ∧ (Settled v a → b = a))
      (fun a => ⟨rfl, fun _ => rfl⟩) dir
  | cons ext rest ih =>
    intro dir d2 s f log h
    rw [processExts_cons_eq] at h
    cases h1 : processExt v ext dir with
    | error err => simp only [h1] at h; exact Except.noConfusion h
    | ok r1 =>
      obtain ⟨s1, f1, dir1, log1⟩ := r1
      simp only [h1] at h
      cases h2 : processExts v rest dir1 with
      | error err => simp only [h2] at h; exact Except.noConfusion h
      | ok r2 =>
        obtain ⟨s2, f2, dir2, log2⟩ := r2
        simp only [h2, Except.ok.injEq, Prod.mk.injEq] at h
        obtain ⟨-, -, h3, -⟩ := h
        subst h3
        refine forall2_comp (fun a b c hab hbc => ⟨hbc.1.trans hab.1, fun hsa => ?_⟩)
          (processExt_settledPres h1) (ih h2)
        have hba := hab.2 hsa
        rw [hba] at hbc
        exact hbc.2 hsa

lemma processExt_settled_mem {v : Nat} {ext : List Char} {dir d2 : List Entry}
    {s f : Nat} {log : List Msg} (h : processExt v ext dir = .ok (s, f, d2, log)) :
    ∀ b ∈ d2, globMatches ext b.name = true → Settled v b := by
  have hpost := processExt_post h
  clear h
  induction hpost with
  | nil =>
    intro b hb
    exact absurd hb (by simp)
  | cons hab htail ih =>
    rename_i a b l1 l2
    intro c hc hg
    rcases List.mem_cons.mp hc with hcb | hc2
    · subst hcb
      obtain ⟨hn, -, htrue⟩ := hab
      obtain ⟨s1, f1, log1, -, hb2⟩ := htrue (by rw [← hn]; exact hg)
      exact ⟨s1, f1, log1, hb2⟩
    · exact ih c hc2 hg

lemma forall2_strengthen {α β : Type} {S : α → β → Prop} {Q : α → Prop} :
    ∀ {l1 : List α} {l2 : List β}, List.Forall₂ S l1 l2 → (∀ a ∈ l1, Q a) →
      List.Forall₂ (fun a b => S a b ∧ Q a) l1 l2 := by
  intro l1 l2 h
  induction h with
  | nil =>
    intro _
    exact List.Forall₂.nil
  | cons hab htail ih =>
    rename_i a b l1 l2
    intro hq
    exact List.Forall₂.cons ⟨hab, hq a (List.mem_cons_self a l1)⟩
      (ih fun x hx => hq x (List.mem_cons_of_mem a hx))

lemma processExts_idem {v : Nat} :
    ∀ {exts : List (List Char)} {dir d2 : List Entry} {s f : Nat} {log : List Msg},
    processExts v exts dir = .ok (s, f, d2, log) →
    processExts v exts d2 = .ok (s, f, d2, log) := by
  intro exts
  induction exts with
  | nil =>
    intro dir d2 s f log h
    simp only [processExts, Except.ok.injEq, Prod.mk.injEq] at h
    obtain ⟨h1, h2, h3, h4⟩ := h
    subst h1; subst h2; subst h3; subst h4
    rfl
  | cons ext rest ih =>
    intro dir d2 s f log h
    rw [processExts_cons_eq] at h
    cases h1 : processExt v ext dir with
    | error err => simp only [h1] at h; exact Except.noConfusion h
    | ok r1 =>
      obtain ⟨s1, f1, dir1, log1⟩ := r1
      simp only [h1] at h
      cases h2 : processExts v rest dir1 with
      | error err => simp only [h2] at h; exact Except.noConfusion h
      | ok r2 =>
        obtain ⟨s2, f2, dir2, log2⟩ := r2
        simp only [h2, Except.ok.injEq, Prod.mk.injEq] at h
        obtain ⟨hA, hB, hC, hD⟩ := h
        subst hC
        have hset := processExts_settledPres h2
        have hmem := processExt_settled_mem h1
        have hrel : List.Forall₂ (fun b c => c.name = b.name ∧
            (globMatches ext b.name = true → c = b)) dir1 dir2 := by
          refine List.Forall₂.imp ?_ (forall2_strengthen hset hmem)
          intro b c hbc
          obtain ⟨⟨hn, hsp⟩, hq⟩ := hbc
          exact ⟨hn, fun hg => hsp (hq hg)⟩
        have h1b : processExt v ext dir2 = .ok (s1, f1, dir2, log1) :=
          processExt_rerun h1 hrel
        have h2b : processExts v rest dir2 = .ok (s2, f2, dir2, log2) := ih h2
        rw [processExts_cons_eq]
        simp only [h1b, h2b]
        rw [hA, hB, hD]

/-- C6: the Directory Processor is idempotent: rerunning it on the directory
state a completed run produced yields the same tally, the same messages and
the same final file state; the second run is a no-op on every file. -/
theorem process_directory_idem (dir : List Entry) (v s f : Nat) (d2 : List Entry)
    (log : List Msg) (h : process_directory dir v = .ok (s, f, d2, log)) :
    process_directory d2 v = .ok (s, f, d2, log) :=
  processExts_idem h

/-- Witness for C6: after stamping the example PXL file once, rerunning the
processor reports the same tally and leaves the times unchanged. -/
theorem process_directory_idem_witness :
    process_directory
        [⟨String.data "PXL_20230615_143022123.mp4",
          1686839422123000, 1686839422123000, false⟩] 0 =
      .ok (1, 0, [⟨String.data "PXL_20230615_143022123.mp4",
        1686839422123000, 1686839422123000, false⟩], []) :=
  process_directory_idem
    [⟨String.data "PXL_20230615_143022123.mp4", 0, 0, false⟩] 0 1 0
    [⟨String.data "PXL_20230615_143022123.mp4",
      1686839422123000, 1686839422123000, false⟩] [] (by rfl)

lemma glob_excl (e2 : List Char) {e1 n : List Char} (hlen : e1.length = e2.length)
    (hne : e1 ≠ e2) (h1 : globMatches e1 n = true) : globMatches e2 n = false := by
  cases n with
  | nil => simp [globMatches] at h1
  | cons c rest =>
    cases hg : globMatches e2 (c :: rest) with
    | false => rfl
    | true =>
      exfalso
      simp only [globMatches, Bool.and_eq_true] at h1 hg
      obtain ⟨-, hs1⟩ := h1
      obtain ⟨-, hs2⟩ := hg
      obtain ⟨r1, hr1⟩ := Option.isSome_iff_exists.mp hs1
      obtain ⟨r2, hr2⟩ := Option.isSome_iff_exists.mp hs2
      have e1eq := stripLit_some hr1
      have e2eq := stripLit_some hr2
      rw [e1eq] at e2eq
      have hl1 : (List.reverse e1 ++ ['.']).length = (List.reverse e2 ++ ['.']).length := by
        simp [hlen]
      have hpair := List.append_inj e2eq hl1
      have hl2 : (List.reverse e1).length = (List.reverse e2).length := by
        simp [hlen]
      have hrev := (List.append_inj hpair.1 hl2).1
      exact hne (List.reverse_injective hrev)

lemma indicator_sum (n : List Char) :
    (file_extensions.map (fun ext => if globMatches ext n then 1 else 0)).sum =
      (if file_extensions.any (fun ext => globMatches ext n) then 1 else 0) := by
  simp only [file_extensions, List.map_cons, List.map_nil, List.sum_cons,
    List.sum_nil, List.any_cons, List.any_nil]
  rcases Bool.eq_false_or_eq_true (globMatches (String.data "mp4") n) with h1 | h1
  · have h2 := glob_excl (String.data "mov") (by decide) (by decide) h1
    have h3 := glob_excl (String.data "avi") (by decide) (by decide) h1
    have h4 := glob_excl (String.data "mkv") (by decide) (by decide) h1
    have h5 := glob_excl (String.data "jpg") (by decide) (by decide) h1
    simp [h1, h2, h3, h4, h5]
  · rcases Bool.eq_false_or_eq_true (globMatches (String.data "mov") n) with h2 | h2
    · have h3 := glob_excl (String.data "avi") (by decide) (by decide) h2
      have h4 := glob_excl (String.data "mkv") (by decide) (by decide) h2
      have h5 := glob_excl (String.data "jpg") (by decide) (by decide) h2
      simp [h1, h2, h3, h4, h5]
    · rcases Bool.eq_false_or_eq_true (globMatches (String.data "avi") n) with h3 | h3
      · have h4 := glob_excl (String.data "mkv") (by decide) (by decide) h3
        have h5 := glob_excl (String.data "jpg") (by decide) (by decide) h3
        simp [h1, h2, h3, h4, h5]
      · rcases Bool.eq_false_or_eq_true (globMatches (String.data "mkv") n) with h4 | h4
        · have h5 := glob_excl (String.data "jpg") (by decide) (by decide) h4
          simp [h1, h2, h3, h4, h5]
        · rcases Bool.eq_false_or_eq_true (globMatches (String.data "jpg") n) with h5 | h5
          · simp [h1, h2, h3, h4, h5]
          · simp [h1, h2, h3, h4, h5]

lemma sumCount_cons_entry (exts : List (List Char)) (e : Entry) (dir : List Entry) :
    sumCount exts (e :: dir) =
      (exts.map (fun ext => if globMatches ext e.name then 1 else 0)).sum +
        sumCount exts dir := by
  induction exts with
  | nil => rfl
  | cons ext rest ih =>
    simp only [sumCount, List.map_cons, List.sum_cons] at ih ⊢
    have hcm : countMatched ext (e :: dir) =
        (if globMatches ext e.name then 1 else 0) + countMatched ext dir := by
      simp only [countMatched, List.filter_cons]
      cases hg : globMatches ext e.name
      · simp [hg]
      · simp [hg, Nat.add_comm]
    rw [hcm, ih]
    omega

lemma sumCount_eq : ∀ dir : List Entry,
    sumCount file_extensions dir =
      (dir.filter (fun e =>
        file_extensions.any (fun ext => globMatches ext e.name))).length := by
  intro dir
  induction dir with
  | nil => rfl
  | cons e dir ih =>
    rw [sumCount_cons_entry, indicator_sum, ih]
    simp only [List.filter_cons]
    cases ha : file_extensions.any (fun ext => globMatches ext e.name)
    · simp [ha]
    · simp [ha, Nat.add_comm]

lemma processExts_untouched {v : Nat} :
    ∀ {exts : List (List Char)} {dir d2 : List Entry} {s f : Nat} {log : List Msg},
    processExts v exts dir = .ok (s, f, d2, log) →
    List.Forall₂ (fun a b => b.name = a.name ∧
      ((∀ ext ∈ exts, globMatches ext a.name = false) → b = a)) dir d2 := by
  intro exts
  induction exts with
  | nil =>
    intro dir d2 s f log h
    simp only [processExts, Except.ok.injEq, Prod.mk.injEq] at h
    obtain ⟨-, -, h3, -⟩ := h
    subst h3
    exact forall2_self (R := fun a b => b.name = a.name ∧
      ((∀ ext ∈ ([] : List (List Char)), globMatches ext a.name = false) → b = a))
      (fun a => ⟨rfl, fun _ => rfl⟩) dir
  | cons ext rest ih =>
    intro dir d2 s f log h
    rw [processExts_cons_eq] at h
    cases h1 : processExt v ext dir with
    | error err => simp only [h1] at h; exact Except.noConfusion h
    | ok r1 =>
      obtain ⟨s1, f1, dir1, log1⟩ := r1
      simp only [h1] at h
      cases h2 : processExts v rest dir1 with
      | error err => simp only [h2] at h; exact Except.noConfusion h
      | ok r2 =>
        obtain ⟨s2, f2, dir2, log2⟩ := r2
        simp only [h2, Except.ok.injEq, Prod.mk.injEq] at h
        obtain ⟨-, -, h3, -⟩ := h
        subst h3
        refine forall2_comp ?_ (processExt_post h1) (ih h2)
        intro a b c hab hbc
        obtain ⟨hn1, hfalse, -⟩ := hab
        obtain ⟨hn2, hc⟩ := hbc
        refine ⟨hn2.trans hn1, fun hall => ?_⟩
        have hba : b = a := hfalse (hall ext (List.mem_cons_self ext rest))
        have hrest : ∀ e2 ∈ rest, globMatches e2 b.name = false := by
          intro e2 he2
          rw [hba]
          exact hall e2 (List.mem_cons_of_mem ext he2)
        exact (hc hrest).trans hba

/-- Following the words of the specification for the refinement comparison:
an entry "whose extension is one of mp4, mov, avi, mkv, jpg
(case-sensitive)" — the name ends in a dot plus one of the five extensions,
with a non-empty part before that dot. -/
def hasSupportedExtSpec (name : List Char) : Bool :=
  file_extensions.any (fun ext =>
    (stripLit (List.reverse ext ++ ['.']) (List.reverse name)).isSome &&
      decide (ext.length + 1 < name.length))

/-- C5 (amended): a completed run visits exactly the non-hidden entries
(name not starting with a dot) whose name ends in a dot plus a supported
extension: the tally counts exactly those, each exactly once (the five glob
patterns are mutually exclusive), and every entry matched by no pattern is
returned untouched. -/
theorem process_visits (dir : List Entry) (v s f : Nat) (d2 : List Entry)
    (log : List Msg) (h : process_directory dir v = .ok (s, f, d2, log)) :
    s + f = (dir.filter (fun e =>
      file_extensions.any (fun ext => globMatches ext e.name))).length ∧
    List.Forall₂ (fun a b => b.name = a.name ∧
      ((∀ ext ∈ file_extensions, globMatches ext a.name = false) → b = a)) dir d2 :=
  ⟨by rw [← sumCount_eq]; exact processExts_counts h, processExts_untouched h⟩

/-- Counterexample to C5 as stated: a hidden file whose extension is mp4
(`.hidden.mp4`) is never visited, because glob skips names starting with a
dot; the run ends with tally (0, 0) even though the claim requires this
entry to be visited and counted. -/
theorem process_visits_counterexample :
    hasSupportedExtSpec (String.data ".hidden.mp4") = true ∧
    process_directory [⟨String.data ".hidden.mp4", 0, 0, false⟩] 0 =
      .ok (0, 0, [⟨String.data ".hidden.mp4", 0, 0, false⟩], []) :=
  ⟨by rfl, by rfl⟩

/-- Witness for the amended C5 on a directory with one pattern-matched file
and one file of unsupported extension. -/
theorem process_visits_witness :
    0 + 1 = (List.filter (fun e =>
      file_extensions.any (fun ext => globMatches ext e.name))
      ([⟨String.data "random_video.mp4", 0, 0, false⟩,
        ⟨String.data "notes.txt", 0, 0, false⟩] : List Entry)).length ∧
    List.Forall₂ (fun a b => b.name = a.name ∧
      ((∀ ext ∈ file_extensions, globMatches ext a.name = false) → b = a))
      ([⟨String.data "random_video.mp4", 0, 0, false⟩,
        ⟨String.data "notes.txt", 0, 0, false⟩] : List Entry)
      ([⟨String.data "random_video.mp4", 0, 0, false⟩,
        ⟨String.data "notes.txt", 0, 0, false⟩] : List Entry) :=
  process_visits
    [⟨String.data "random_video.mp4", 0, 0, false⟩,
     ⟨String.data "notes.txt", 0, 0, false⟩] 0 0 1
    [⟨String.data "random_video.mp4", 0, 0, false⟩,
     ⟨String.data "notes.txt", 0, 0, false⟩] [] (by rfl)
